import Mathlib

/-!
Verification of the embedding vector primitive of the `rag_embeddings`
repository (`src/ext/rag_embeddings/embedding.c`), shallowly embedded in
Lean 4.

Modelling decisions:

* A Ruby `VALUE` reaching the C extension is modelled by `RValue`: an
  integer, a float, or a non-numeric object.  `NUM2DBL` is modelled by
  `num2dbl`.
* C `float` / `double` values are idealised as real numbers.  The one
  place where the narrowing from double to single precision is
  observable — the cast `(float)NUM2DBL(val)` in `embedding_from_array` —
  is kept as an explicit, uninterpreted rounding function `f32 : ℝ → ℝ`
  passed to `embedding_from_array`; `DBL2NUM` (widening a float back to a
  double) is exact and modelled as the identity.  All other arithmetic
  (`double` accumulations, `sqrt`, division) is idealised as exact real
  arithmetic, so rounding error and non-finite values (NaN/Infinity) are
  not represented.
* A call of `rb_raise` is modelled as returning an `Except.error` carrying
  a constructor per raise site, with the same data the C format string
  interpolates (the two dimensions for the mismatch error, the offending
  index for the type error).
* The destructive `normalize!` is modelled by a function from the
  receiver to the pair (post-state of the receiver, optionally the raised
  error): the C code raises before the mutation loop, so on the error
  path the post-state is the untouched receiver.
* The struct field `dim` (a `uint16_t` kept equal to the number of stored
  floats) is modelled as the length of the stored value list;
  `embedding_from_array` enforces `dim ≤ UINT16_MAX`.
-/

namespace RagEmbeddings

/-- A Ruby `VALUE` as seen by the C extension: an Integer, a Float, or
some other (non-numeric) object. -/
inductive RValue where
  | rInt : Int → RValue
  | rFloat : ℝ → RValue
  | rOther : RValue

/-- The numeric check `RB_FLOAT_TYPE_P(val) || RB_INTEGER_TYPE_P(val)`
from `embedding_from_array`. -/
def RValue.isNumeric : RValue → Bool
  | .rInt _ => true
  | .rFloat _ => true
  | .rOther => false

/-- `NUM2DBL`: the double value of a numeric Ruby object (junk `0` on a
non-numeric object, on which the C macro is never reached because the
numeric check raises first). -/
noncomputable def num2dbl : RValue → ℝ
  | .rInt z => (z : ℝ)
  | .rFloat x => x
  | .rOther => 0

/-- One constructor per `rb_raise` site in `embedding.c`, carrying the
data interpolated into the C error message. -/
inductive CError where
  | argErrorTooLarge : CError
  | argErrorEmpty : CError
  | argErrorDimMismatch : Nat → Nat → CError
  | typeErrorNonNumeric : Nat → CError
  | zeroDivError : CError
deriving DecidableEq

/-- The C struct `embedding_t`: the flexible array member `values[]`
holds `dim` floats, so the `uint16_t` field `dim` is recovered as the
length of the stored list. -/
structure Embedding where
  values : List ℝ

/-- The `dim` field of `embedding_t` (instance method `embedding_dim`). -/
def Embedding.dim (e : Embedding) : Nat := e.values.length

/-- `UINT16_MAX`, the bound checked by `embedding_from_array`. -/
def UINT16_MAX : Nat := 65535

/-- `EMBEDDING_DIMENSION` from `embedding_config.h` (not referenced by
`embedding.c`, which never includes that header). -/
def EMBEDDING_DIMENSION : Nat := 3072

/-- The copy loop of `embedding_from_array`: walk the array, raise
`rb_eTypeError` with the current index at the first non-numeric element,
otherwise store `(float)NUM2DBL(val)` (the narrowing cast is the
uninterpreted `f32`). -/
noncomputable def copyLoop (f32 : ℝ → ℝ) : List RValue → Nat → Except CError (List ℝ)
  | [], _ => .ok []
  | v :: rest, i =>
    if v.isNumeric then
      match copyLoop f32 rest (i + 1) with
      | .ok tl => .ok (f32 (num2dbl v) :: tl)
      | .error err => .error err
    else
      .error (.typeErrorNonNumeric i)

/-- `embedding_from_array`: reject arrays longer than `UINT16_MAX` and
the empty array, then copy the values (raising on a non-numeric
element).  `f32` is the narrowing cast to single precision. -/
noncomputable def embedding_from_array (f32 : ℝ → ℝ) (arr : List RValue) :
    Except CError Embedding :=
  if arr.length > UINT16_MAX then .error .argErrorTooLarge
  else if arr.length = 0 then .error .argErrorEmpty
  else
    match copyLoop f32 arr 0 with
    | .ok vs => .ok ⟨vs⟩
    | .error err => .error err

/-- `embedding_to_a`: a fresh Ruby array holding `DBL2NUM(values[i])` for
`i < dim`, in order (the widening `DBL2NUM` is exact). -/
def embedding_to_a (e : Embedding) : List ℝ := e.values

/-- The single accumulation loop of `embedding_cosine_similarity`:
`dot += ai*bi; norm_a += ai*ai; norm_b += bi*bi` over paired
components, in index order, with double-precision accumulators. -/
def simLoop : List ℝ → List ℝ → ℝ → ℝ → ℝ → ℝ × ℝ × ℝ
  | a :: xs, b :: ys, dot, na, nb => simLoop xs ys (dot + a * b) (na + a * a) (nb + b * b)
  | _, _, dot, na, nb => (dot, na, nb)

open Classical in
/-- `embedding_cosine_similarity`: raise `rb_eArgError` with both
dimensions on a mismatch; accumulate `dot`, `norm_a`, `norm_b` in one
pass; return `0.0` if either squared norm is exactly zero; otherwise
divide the dot product by `sqrt(norm_a * norm_b)` and clamp the result
into `[-1, 1]`. -/
noncomputable def embedding_cosine_similarity (a b : Embedding) : Except CError ℝ :=
  if a.dim ≠ b.dim then .error (.argErrorDimMismatch a.dim b.dim)
  else
    let acc := simLoop a.values b.values 0 0 0
    if acc.2.1 = 0 ∨ acc.2.2 = 0 then .ok 0
    else
      let similarity := acc.1 / Real.sqrt (acc.2.1 * acc.2.2)
      let similarity := if similarity > 1 then 1 else similarity
      let similarity := if similarity < -1 then -1 else similarity
      .ok similarity

/-- The `sum_squares` loop shared by `embedding_magnitude` and
`embedding_normalize_bang`: `sum_squares += val*val` in index order. -/
def sumSqLoop : List ℝ → ℝ → ℝ
  | [], acc => acc
  | v :: rest, acc => sumSqLoop rest (acc + v * v)

/-- `embedding_magnitude`: the square root of the double-precision sum of
squared components.  Total: the C function contains no raise site. -/
noncomputable def embedding_magnitude (e : Embedding) : ℝ :=
  Real.sqrt (sumSqLoop e.values 0)

open Classical in
/-- `embedding_normalize_bang` (`normalize!`): recompute the magnitude;
raise `rb_eZeroDivError` if it is zero — before any store, so the
receiver is unchanged; otherwise multiply every component in place by
the reciprocal of the magnitude and return `self`.  The result is the
pair (post-state of the receiver, optionally the raised error). -/
noncomputable def embedding_normalize_bang (e : Embedding) : Embedding × Option CError :=
  let magnitude := Real.sqrt (sumSqLoop e.values 0)
  if magnitude = 0 then (e, some .zeroDivError)
  else
    let inv_magnitude := 1 / magnitude
    (⟨e.values.map (fun v => v * inv_magnitude)⟩, none)

/-! ## Closed forms of the accumulation loops -/

/-- Closed form of the squared-norm accumulation: the sum of `v*v` over a
list. -/
def sqSum (l : List ℝ) : ℝ := (l.map fun v => v * v).sum

/-- Closed form of the dot-product accumulation: the sum of `x*y` over
paired components. -/
def dotSum (xs ys : List ℝ) : ℝ := ((xs.zip ys).map fun p => p.1 * p.2).sum

/-- The clamp of `embedding_cosine_similarity`, as a nested conditional. -/
noncomputable def clamp (s : ℝ) : ℝ :=
  if s > 1 then 1 else if s < -1 then -1 else s

theorem sumSqLoop_eq (l : List ℝ) : ∀ acc : ℝ, sumSqLoop l acc = acc + sqSum l := by
  induction l with
  | nil => intro acc; simp [sumSqLoop, sqSum]
  | cons v rest ih =>
      intro acc
      rw [sumSqLoop, ih]
      simp only [sqSum, List.map_cons, List.sum_cons]
      ring

theorem sqSum_nonneg (l : List ℝ) : 0 ≤ sqSum l := by
  refine List.sum_nonneg ?_
  intro x hx
  rcases List.mem_map.1 hx with ⟨v, _, rfl⟩
  exact mul_self_nonneg v

theorem simLoop_eq :
    ∀ xs ys : List ℝ, xs.length = ys.length → ∀ d na nb : ℝ,
      simLoop xs ys d na nb = (d + dotSum xs ys, na + sqSum xs, nb + sqSum ys) := by
  intro xs
  induction xs with
  | nil =>
      intro ys h d na nb
      cases ys with
      | nil => simp [simLoop, dotSum, sqSum]
      | cons b ys => simp at h
  | cons a xs ih =>
      intro ys h d na nb
      cases ys with
      | nil => simp at h
      | cons b ys =>
          simp only [List.length_cons, Nat.add_right_cancel_iff] at h
          rw [simLoop, ih ys h]
          simp only [dotSum, sqSum, List.zip_cons_cons, List.map_cons, List.sum_cons,
            Prod.mk.injEq]
          refine ⟨by ring, by ring, by ring⟩

theorem dotSum_comm (xs ys : List ℝ) : dotSum xs ys = dotSum ys xs := by
  unfold dotSum
  rw [← List.zip_swap xs ys, List.map_map]
  congr 1
  exact List.map_congr_left fun p _ => mul_comm p.1 p.2

theorem neg_one_le_clamp (s : ℝ) : -1 ≤ clamp s := by
  unfold clamp
  split_ifs <;> linarith

theorem clamp_le_one (s : ℝ) : clamp s ≤ 1 := by
  unfold clamp
  split_ifs <;> linarith

/-- On equal dimensions, `embedding_cosine_similarity` in closed form:
the zero-norm check against the accumulated squared norms, then the
clamped quotient. -/
theorem cosine_closed (a b : Embedding) (h : a.dim = b.dim) :
    embedding_cosine_similarity a b =
      if sqSum a.values = 0 ∨ sqSum b.values = 0 then .ok 0
      else
        .ok (clamp (dotSum a.values b.values /
          Real.sqrt (sqSum a.values * sqSum b.values))) := by
  have hlen : a.values.length = b.values.length := h
  unfold embedding_cosine_similarity
  rw [if_neg (by simp [h])]
  simp only [simLoop_eq a.values b.values hlen 0 0 0, zero_add]
  by_cases hz : sqSum a.values = 0 ∨ sqSum b.values = 0
  · rw [if_pos hz, if_pos hz]
  · rw [if_neg hz, if_neg hz]
    unfold clamp
    split_ifs with h1 h2 h3 <;> first | rfl | linarith

/-! ## The copy loop of `embedding_from_array` -/

theorem copyLoop_ok (f32 : ℝ → ℝ) :
    ∀ l : List RValue, (∀ v ∈ l, v.isNumeric = true) → ∀ i : Nat,
      copyLoop f32 l i = .ok (l.map fun v => f32 (num2dbl v)) := by
  intro l
  induction l with
  | nil => intro _ i; simp [copyLoop]
  | cons v rest ih =>
      intro h i
      have hv := h v (List.mem_cons_self v rest)
      have hrest : ∀ w ∈ rest, w.isNumeric = true :=
        fun w hw => h w (List.mem_cons_of_mem v hw)
      simp only [copyLoop]
      rw [if_pos hv, ih hrest (i + 1)]
      simp

theorem copyLoop_err (f32 : ℝ → ℝ) :
    ∀ l : List RValue, (∃ v ∈ l, v.isNumeric = false) → ∀ i : Nat,
      copyLoop f32 l i =
        .error (.typeErrorNonNumeric (i + l.findIdx fun v => !v.isNumeric)) := by
  intro l
  induction l with
  | nil => intro h; simp at h
  | cons v rest ih =>
      intro h i
      by_cases hv : v.isNumeric = true
      · have hrest : ∃ w ∈ rest, w.isNumeric = false := by
          rcases h with ⟨w, hw, hwn⟩
          rcases List.mem_cons.1 hw with rfl | hw2
          · rw [hv] at hwn; cases hwn
          · exact ⟨w, hw2, hwn⟩
        simp only [copyLoop]
        rw [if_pos hv, ih hrest (i + 1)]
        simp [List.findIdx_cons, hv]
        omega
      · have hv2 : v.isNumeric = false := by revert hv; cases v.isNumeric <;> simp
        simp only [copyLoop]
        rw [if_neg (by simp [hv2])]
        simp [List.findIdx_cons, hv2]

/-- A valid call of `embedding_from_array` returns the copied values. -/
theorem from_array_ok (f32 : ℝ → ℝ) (l : List RValue)
    (h1 : 1 ≤ l.length) (h2 : l.length ≤ UINT16_MAX)
    (hnum : ∀ v ∈ l, v.isNumeric = true) :
    embedding_from_array f32 l = .ok ⟨l.map fun v => f32 (num2dbl v)⟩ := by
  unfold embedding_from_array
  rw [if_neg (not_lt.mpr h2), if_neg (by omega)]
  rw [copyLoop_ok f32 l hnum 0]

/-! ## Claim theorems -/

/-- C1: for every valid numeric sequence `l` with `1 ≤ |l| ≤` the maximum
dimension, `embedding_from_array` followed by `embedding_to_a` yields the
sequence element-for-element within single-precision rounding tolerance:
each returned element is the (exact) double-widening of the
single-precision coercion `f32` of the corresponding input element, and
the returned sequence has length equal to the Embedding's dimension.
(Proved up to the code's enforced maximum `UINT16_MAX`, which subsumes
any smaller configured maximum.) -/
theorem roundtrip_from_array_to_a (f32 : ℝ → ℝ) (l : List RValue)
    (h1 : 1 ≤ l.length) (h2 : l.length ≤ UINT16_MAX)
    (hnum : ∀ v ∈ l, v.isNumeric = true) :
    ∃ e : Embedding, embedding_from_array f32 l = .ok e ∧
      embedding_to_a e = l.map (fun v => f32 (num2dbl v)) ∧
      (embedding_to_a e).length = e.dim ∧ e.dim = l.length := by
  refine ⟨⟨l.map fun v => f32 (num2dbl v)⟩, from_array_ok f32 l h1 h2 hnum, rfl, rfl, ?_⟩
  simp [Embedding.dim]

/-- Witness for C1 at the concrete input `[3, 4.0]` with the identity
rounding. -/
theorem roundtrip_from_array_to_a_witness :
    ∃ e : Embedding, embedding_from_array id [RValue.rInt 3, RValue.rFloat 4] = .ok e ∧
      embedding_to_a e = [(3 : ℝ), 4] ∧
      (embedding_to_a e).length = e.dim ∧ e.dim = 2 := by
  obtain ⟨e, he, hto, hlen, hdim⟩ :=
    roundtrip_from_array_to_a id [RValue.rInt 3, RValue.rFloat 4]
      (by simp) (by simp [UINT16_MAX])
      (by
        intro v hv
        simp only [List.mem_cons, List.not_mem_nil, or_false] at hv
        rcases hv with rfl | rfl <;> rfl)
  refine ⟨e, he, ?_, hlen, by simpa using hdim⟩
  rw [hto]
  norm_num [num2dbl]

/-- C5 counterexample: `embedding_from_array` accepts a sequence of
length 3073, strictly longer than `EMBEDDING_DIMENSION = 3072`, and
returns an Embedding of dimension 3073 instead of signaling a
validation error: `embedding.c` never includes `embedding_config.h`, and
its length check is against `UINT16_MAX`. -/
theorem from_array_accepts_length_3073 :
    ∃ e : Embedding,
      embedding_from_array id (List.replicate 3073 (RValue.rInt 1)) = .ok e ∧
      e.dim = 3073 ∧ EMBEDDING_DIMENSION < 3073 := by
  refine ⟨_, from_array_ok id _
      (by simp only [List.length_replicate]; omega)
      (by simp only [List.length_replicate, UINT16_MAX]; omega) ?_, ?_,
    by simp only [EMBEDDING_DIMENSION]; omega⟩
  · intro v hv
    rw [List.eq_of_mem_replicate hv]
    rfl
  · simp only [Embedding.dim, List.length_map, List.length_replicate]

/-- C5 amended: `embedding_from_array` signals an argument error on the
empty sequence, signals an argument error when the length exceeds
`UINT16_MAX = 65535` (the bound the code actually enforces —
`EMBEDDING_DIMENSION` is never consulted), and succeeds for every
numeric sequence of length within `1..UINT16_MAX`, with dimension equal
to the sequence length. -/
theorem from_array_dimension_contract (f32 : ℝ → ℝ) (l : List RValue) :
    (l.length = 0 → embedding_from_array f32 l = .error .argErrorEmpty) ∧
    (l.length > UINT16_MAX → embedding_from_array f32 l = .error .argErrorTooLarge) ∧
    (1 ≤ l.length → l.length ≤ UINT16_MAX → (∀ v ∈ l, v.isNumeric = true) →
      ∃ e : Embedding, embedding_from_array f32 l = .ok e ∧ e.dim = l.length) := by
  refine ⟨?_, ?_, ?_⟩
  · intro h0
    unfold embedding_from_array
    rw [if_neg (by simp [h0, UINT16_MAX]), if_pos h0]
  · intro hbig
    unfold embedding_from_array
    rw [if_pos hbig]
  · intro h1 h2 hnum
    exact ⟨_, from_array_ok f32 l h1 h2 hnum, by simp [Embedding.dim]⟩

/-- Witness for C5 (amended) at the empty list, a list of length 65536,
and the singleton list `[1]`. -/
theorem from_array_dimension_contract_witness :
    embedding_from_array id ([] : List RValue) = .error .argErrorEmpty ∧
    embedding_from_array id (List.replicate 65536 (RValue.rInt 0)) =
      .error .argErrorTooLarge ∧
    (∃ e : Embedding, embedding_from_array id [RValue.rInt 1] = .ok e ∧ e.dim = 1) := by
  refine ⟨(from_array_dimension_contract id []).1 rfl, ?_, ?_⟩
  · exact (from_array_dimension_contract id _).2.1
      (by simp only [List.length_replicate, UINT16_MAX]; omega)
  · exact (from_array_dimension_contract id [RValue.rInt 1]).2.2 (by simp)
      (by simp [UINT16_MAX])
      (by
        intro v hv
        simp only [List.mem_cons, List.not_mem_nil, or_false] at hv
        subst hv
        rfl)

/-- C6: if any element of the input sequence is non-numeric (neither
integer nor float), `embedding_from_array` signals a type error
identifying the offending index (the first non-numeric index), and no
Embedding is observable to the caller. -/
theorem from_array_type_error (f32 : ℝ → ℝ) (l : List RValue)
    (h2 : l.length ≤ UINT16_MAX)
    (hbad : ∃ v ∈ l, v.isNumeric = false) :
    embedding_from_array f32 l =
      .error (.typeErrorNonNumeric (l.findIdx fun v => !v.isNumeric)) ∧
    ∀ e : Embedding, embedding_from_array f32 l ≠ .ok e := by
  have hne : l ≠ [] := by rintro rfl; simp at hbad
  have hmain : embedding_from_array f32 l =
      .error (.typeErrorNonNumeric (l.findIdx fun v => !v.isNumeric)) := by
    unfold embedding_from_array
    rw [if_neg (not_lt.mpr h2), if_neg (by simp [hne])]
    rw [copyLoop_err f32 l hbad 0]
    simp
  exact ⟨hmain, fun e he => by rw [hmain] at he; cases he⟩

/-- Witness for C6 at `[1, :sym, 2.0]`: the type error reports index 1. -/
theorem from_array_type_error_witness :
    embedding_from_array id [RValue.rInt 1, RValue.rOther, RValue.rFloat 2] =
      .error (.typeErrorNonNumeric 1) ∧
    ∀ e : Embedding,
      embedding_from_array id [RValue.rInt 1, RValue.rOther, RValue.rFloat 2] ≠ .ok e := by
  have h := from_array_type_error id [RValue.rInt 1, RValue.rOther, RValue.rFloat 2]
    (by simp [UINT16_MAX]) ⟨RValue.rOther, by simp, rfl⟩
  refine ⟨?_, h.2⟩
  have hidx : ([RValue.rInt 1, RValue.rOther, RValue.rFloat 2].findIdx
      fun v => !v.isNumeric) = 1 := by
    simp [List.findIdx_cons, RValue.isNumeric]
  rw [← hidx]
  exact h.1

/-- C2: for all Embeddings of equal dimension, `embedding_cosine_similarity`
returns a result, and the result lies in the closed interval `[-1, 1]`:
the quotient is clamped before being returned (in the real-valued model
no NaN or Infinity exists; the zero-norm branch returns `0`). -/
theorem cosine_similarity_bounded (a b : Embedding) (h : a.dim = b.dim) :
    ∃ r : ℝ, embedding_cosine_similarity a b = .ok r ∧ -1 ≤ r ∧ r ≤ 1 := by
  rw [cosine_closed a b h]
  by_cases hz : sqSum a.values = 0 ∨ sqSum b.values = 0
  · rw [if_pos hz]
    exact ⟨0, rfl, by norm_num, by norm_num⟩
  · rw [if_neg hz]
    exact ⟨_, rfl, neg_one_le_clamp _, clamp_le_one _⟩

/-- Witness for C2 at `[1,2]` and `[3,4]`. -/
theorem cosine_similarity_bounded_witness :
    ∃ r : ℝ, embedding_cosine_similarity ⟨[1, 2]⟩ ⟨[3, 4]⟩ = .ok r ∧ -1 ≤ r ∧ r ≤ 1 :=
  cosine_similarity_bounded ⟨[1, 2]⟩ ⟨[3, 4]⟩ rfl

/-- C3: for Embeddings of equal dimension, if either operand's
accumulated squared norm is exactly `0` (in particular when either
operand is all-zero), `embedding_cosine_similarity` returns exactly `0`,
taking the zero-check branch instead of dividing. -/
theorem cosine_similarity_zero_norm (a b : Embedding) (h : a.dim = b.dim)
    (hz : sqSum a.values = 0 ∨ sqSum b.values = 0) :
    embedding_cosine_similarity a b = .ok 0 := by
  rw [cosine_closed a b h, if_pos hz]

/-- Witness for C3: the all-zero vector `[0,0]` against `[5,6]`. -/
theorem cosine_similarity_zero_norm_witness :
    embedding_cosine_similarity ⟨[0, 0]⟩ ⟨[5, 6]⟩ = .ok 0 := by
  refine cosine_similarity_zero_norm ⟨[0, 0]⟩ ⟨[5, 6]⟩ rfl ?_
  left
  norm_num [sqSum]

/-- C4: comparing Embeddings of different dimensions signals the
argument error carrying both dimensions, and no result is returned. -/
theorem cosine_similarity_dim_mismatch (a b : Embedding) (h : a.dim ≠ b.dim) :
    embedding_cosine_similarity a b = .error (.argErrorDimMismatch a.dim b.dim) := by
  unfold embedding_cosine_similarity
  rw [if_pos h]

/-- Witness for C4 at dimensions 10 vs 20 and 2 vs 3. -/
theorem cosine_similarity_dim_mismatch_witness :
    embedding_cosine_similarity ⟨List.replicate 10 0⟩ ⟨List.replicate 20 0⟩ =
      .error (.argErrorDimMismatch 10 20) ∧
    embedding_cosine_similarity ⟨List.replicate 2 0⟩ ⟨List.replicate 3 0⟩ =
      .error (.argErrorDimMismatch 2 3) :=
  ⟨cosine_similarity_dim_mismatch _ _ (by decide),
   cosine_similarity_dim_mismatch _ _ (by decide)⟩

/-- C9: on equal dimensions `embedding_cosine_similarity` is exactly
symmetric: swapping the operands swaps the two per-element factors and
the two norm accumulators, whose products (and product under the square
root) are commutative. -/
theorem cosine_similarity_symm (a b : Embedding) (h : a.dim = b.dim) :
    embedding_cosine_similarity a b = embedding_cosine_similarity b a := by
  rw [cosine_closed a b h, cosine_closed b a h.symm]
  rw [dotSum_comm b.values a.values, mul_comm (sqSum b.values) (sqSum a.values)]
  exact if_congr or_comm rfl rfl

/-- Witness for C9 at `[1,2]` and `[3,4]`. -/
theorem cosine_similarity_symm_witness :
    embedding_cosine_similarity ⟨[1, 2]⟩ ⟨[3, 4]⟩ =
      embedding_cosine_similarity ⟨[3, 4]⟩ ⟨[1, 2]⟩ :=
  cosine_similarity_symm ⟨[1, 2]⟩ ⟨[3, 4]⟩ rfl

theorem sqSum_map_mul (l : List ℝ) (c : ℝ) :
    sqSum (l.map fun v => v * c) = sqSum l * (c * c) := by
  unfold sqSum
  rw [List.map_map]
  have hf : ((fun v => v * v) ∘ fun v : ℝ => v * c) = fun v : ℝ => (v * v) * (c * c) := by
    funext v
    simp only [Function.comp]
    ring
  rw [hf]
  exact List.sum_map_mul_right l (fun v => v * v) (c * c)

/-- C7: `normalize!` on an Embedding of magnitude zero signals the
division-by-zero error and leaves the Embedding completely unmodified:
the raise happens before the mutation loop, so the post-state is the
untouched receiver (every component retains its prior value and the
dimension is unchanged). -/
theorem normalize_zero_vector_error (e : Embedding) (h : embedding_magnitude e = 0) :
    embedding_normalize_bang e = (e, some CError.zeroDivError) := by
  have h1 : Real.sqrt (sumSqLoop e.values 0) = 0 := h
  simp [embedding_normalize_bang, h1]

/-- Witness for C7: the all-zero vector `[0,0,0]` is returned with all
components still exactly `0`. -/
theorem normalize_zero_vector_error_witness :
    embedding_normalize_bang ⟨[0, 0, 0]⟩ = (⟨[0, 0, 0]⟩, some CError.zeroDivError) := by
  refine normalize_zero_vector_error ⟨[0, 0, 0]⟩ ?_
  unfold embedding_magnitude
  rw [sumSqLoop_eq]
  norm_num [sqSum, Real.sqrt_zero]

/-- C8: on an Embedding of nonzero magnitude, `normalize!` raises no
error, divides every component by the magnitude (as multiplication by
its reciprocal) in place, preserves the dimension, and afterwards the
magnitude is exactly `1` in the real-valued model (hence approximately
`1.0` within floating-point tolerance). -/
theorem normalize_nonzero (e : Embedding) (h : embedding_magnitude e ≠ 0) :
    (embedding_normalize_bang e).2 = none ∧
    (embedding_normalize_bang e).1.values =
      e.values.map (fun v => v / embedding_magnitude e) ∧
    (embedding_normalize_bang e).1.dim = e.dim ∧
    embedding_magnitude (embedding_normalize_bang e).1 = 1 := by
  have hsum : sumSqLoop e.values 0 = sqSum e.values := by
    rw [sumSqLoop_eq]
    ring
  have hsq0 : (0 : ℝ) ≤ sqSum e.values := sqSum_nonneg e.values
  have hm : embedding_magnitude e = Real.sqrt (sqSum e.values) := by
    unfold embedding_magnitude
    rw [hsum]
  have hmne : Real.sqrt (sqSum e.values) ≠ 0 := by
    rw [← hm]
    exact h
  have hnb : embedding_normalize_bang e =
      (⟨e.values.map fun v => v * (1 / Real.sqrt (sqSum e.values))⟩, none) := by
    simp only [embedding_normalize_bang, hsum]
    rw [if_neg hmne]
  have key : sqSum (e.values.map fun v => v * (1 / Real.sqrt (sqSum e.values))) = 1 := by
    rw [sqSum_map_mul]
    have hMM : Real.sqrt (sqSum e.values) * Real.sqrt (sqSum e.values) = sqSum e.values :=
      Real.mul_self_sqrt hsq0
    have hsne : sqSum e.values ≠ 0 := by
      intro h0
      exact hmne (by rw [h0, Real.sqrt_zero])
    rw [← hMM]
    field_simp
  refine ⟨by rw [hnb], ?_, ?_, ?_⟩
  · rw [hnb, hm]
    simp only [mul_one_div]
  · rw [hnb]
    simp [Embedding.dim]
  · rw [hnb]
    unfold embedding_magnitude
    rw [sumSqLoop_eq]
    simp only [zero_add]
    rw [key, Real.sqrt_one]

/-- Witness for C8 at `[3,4]` (magnitude 5). -/
theorem normalize_nonzero_witness :
    (embedding_normalize_bang ⟨[3, 4]⟩).2 = none ∧
    (embedding_normalize_bang ⟨[3, 4]⟩).1.dim = 2 ∧
    embedding_magnitude (embedding_normalize_bang ⟨[3, 4]⟩).1 = 1 := by
  have hm : embedding_magnitude ⟨[(3 : ℝ), 4]⟩ = 5 := by
    unfold embedding_magnitude
    rw [sumSqLoop_eq]
    have h25 : sqSum [(3 : ℝ), 4] = 25 := by norm_num [sqSum]
    rw [h25]
    rw [show (0 : ℝ) + 25 = 5 ^ 2 by norm_num, Real.sqrt_sq (by norm_num)]
  obtain ⟨h1, _, h3, h4⟩ := normalize_nonzero ⟨[(3 : ℝ), 4]⟩ (by rw [hm]; norm_num)
  exact ⟨h1, by simpa using h3, h4⟩

/-- C10: `embedding_magnitude` is total (its type has no error channel,
matching the absence of any raise site in the C function): it returns
the square root of the double-precision sum of squared components, which
is always nonnegative, and it returns `0` on the all-zero vector instead
of failing. -/
theorem magnitude_total (e : Embedding) :
    embedding_magnitude e = Real.sqrt (sumSqLoop e.values 0) ∧
    0 ≤ embedding_magnitude e ∧
    ((∀ v ∈ e.values, v = 0) → embedding_magnitude e = 0) := by
  refine ⟨rfl, Real.sqrt_nonneg _, ?_⟩
  intro hz
  have hzero : sqSum e.values = 0 := by
    unfold sqSum
    refine List.sum_eq_zero ?_
    intro x hx
    rcases List.mem_map.1 hx with ⟨v, hv, rfl⟩
    rw [hz v hv]
    ring
  unfold embedding_magnitude
  rw [sumSqLoop_eq]
  simp [hzero]

/-- Witness for C10 at the all-zero vector `[0,0]`. -/
theorem magnitude_total_witness :
    0 ≤ embedding_magnitude ⟨[0, 0]⟩ ∧ embedding_magnitude ⟨[0, 0]⟩ = 0 := by
  obtain ⟨-, h2, h3⟩ := magnitude_total ⟨[0, 0]⟩
  refine ⟨h2, h3 ?_⟩
  intro v hv
  simp only [List.mem_cons, List.not_mem_nil, or_false] at hv
  rcases hv with rfl | rfl <;> rfl

end RagEmbeddings
